import Mathlib

/-!
Verification of the yourpm package/container reconciler
(github.com/crbroughton/pkg-exploration).

Paths are modelled as lists of components; the filesystem as an
association list from paths to nodes.  Pure Lean translations of the
Go functions under `pkg/profile`, `pkg/symlinks`, `pkg/store` (the
prune service), `pkg/repository`, `pkg/docker` and
`cmd/container-exec` are given below, together with theorems about
them.
-/

namespace Yourpm

/-- A filesystem path, as a list of components (`/a/b/c` is `[a, b, c]`). -/
abbrev Path := List String

/-- Contents of a regular file: raw bytes, or (for a `.tar.gz`/`.tgz`
file) the list of archive entries, each a relative path with its data. -/
inductive Content where
  | bytes (data : String)
  | archive (entries : List (Path × String))
deriving DecidableEq, Repr

/-- A filesystem node: regular file (with an executable bit),
directory, or symbolic link. -/
inductive Node where
  | file (c : Content) (exec : Bool)
  | dir
  | symlink (target : Path)
deriving DecidableEq, Repr

/-- The filesystem: an association list from paths to nodes. -/
abbrev FS := List (Path × Node)

/-- Look a path up in the filesystem (`os.Lstat` + read, does not
follow a symlink at the path itself). -/
def fsFind : FS → Path → Option Node
  | [], _ => none
  | (q, n) :: rest, p => if q = p then some n else fsFind rest p

/-- Remove the node at a path (`os.Remove`). -/
def fsRemove : FS → Path → FS
  | [], _ => []
  | e :: rest, p => if e.1 = p then fsRemove rest p else e :: fsRemove rest p

/-- Write a node at a path, replacing any previous node there. -/
def fsInsert (fs : FS) (p : Path) (n : Node) : FS :=
  (p, n) :: fsRemove fs p

/-- `os.MkdirAll`: create the directory if nothing is at the path yet. -/
def mkdirAll (fs : FS) (p : Path) : FS :=
  match fsFind fs p with
  | some _ => fs
  | none => fsInsert fs p .dir

/-- Result of an `os.Stat`-style lookup that follows symlinks. -/
inductive StatRes where
  | found (n : Node)
  | notExist
  | loop
deriving DecidableEq, Repr

/-- Follow symlinks (with fuel, as the kernel bounds link chains) and
report the node a path ultimately refers to. -/
def statR (fs : FS) : Nat → Path → StatRes
  | 0, _ => .loop
  | fuel + 1, p =>
    match fsFind fs p with
    | none => .notExist
    | some (.symlink t) => statR fs fuel t
    | some n => .found n

/-- The link-chain bound used for every `os.Stat` in the model. -/
def statFuel : Nat := 40

/-- The profile bin entries with a given name (used to state that a
name maps to exactly one node). -/
def entriesAt : FS → Path → List (Path × Node)
  | [], _ => []
  | e :: rest, p => if e.1 = p then e :: entriesAt rest p else entriesAt rest p

/-! ### Profile linker (`pkg/profile/profile.go`, `Link`) -/

/-- The linking loop of `Profile.Link`: for each binary, remove any
existing entry at `binDir/binary` and create a fresh symlink to
`storePath/binary`. -/
def linkAll (binDir storePath : Path) (binaries : List String) (fs : FS) : FS :=
  binaries.foldl (fun f b => fsInsert f (binDir ++ [b]) (.symlink (storePath ++ [b]))) fs

/-- `Profile.Link`: ensure the profile bin directory exists, then run
the linking loop. -/
def Link (fs : FS) (profileRoot storePath : Path) (binaries : List String) : FS :=
  linkAll (profileRoot ++ ["bin"]) storePath binaries (mkdirAll fs (profileRoot ++ ["bin"]))

/-! ### Basic filesystem lemmas -/

theorem fsFind_fsRemove (fs : FS) (p q : Path) :
    fsFind (fsRemove fs p) q = if p = q then none else fsFind fs q := by
  induction fs with
  | nil => simp [fsRemove, fsFind]
  | cons e rest ih =>
    by_cases he : e.1 = p
    · by_cases hq : p = q
      · simpa [fsRemove, he, hq] using ih
      · have heq : e.1 ≠ q := fun hh => hq (he ▸ hh)
        simpa [fsRemove, he, fsFind, heq, hq] using ih
    · by_cases heq : e.1 = q
      · have hq : p ≠ q := fun hh => he (heq ▸ hh.symm ▸ rfl)
        simp [fsRemove, he, fsFind, heq, ih, hq, Ne.symm hq]
      · simp [fsRemove, he, fsFind, heq, ih]

theorem fsFind_fsInsert (fs : FS) (p q : Path) (n : Node) :
    fsFind (fsInsert fs p n) q = if p = q then some n else fsFind fs q := by
  by_cases h : p = q
  · subst h; simp [fsInsert, fsFind]
  · simp [fsInsert, fsFind, h, fsFind_fsRemove, Ne.symm h]

theorem fsFind_mkdirAll (fs : FS) (p q : Path) (h : p ≠ q) :
    fsFind (mkdirAll fs p) q = fsFind fs q := by
  unfold mkdirAll
  cases hf : fsFind fs p with
  | some n => rfl
  | none => rw [fsFind_fsInsert, if_neg h]

theorem entriesAt_fsRemove_self (fs : FS) (p : Path) :
    entriesAt (fsRemove fs p) p = [] := by
  induction fs with
  | nil => rfl
  | cons e rest ih =>
    by_cases he : e.1 = p <;> simp [fsRemove, he, entriesAt, ih]

theorem entriesAt_fsInsert_self (fs : FS) (p : Path) (n : Node) :
    entriesAt (fsInsert fs p n) p = [(p, n)] := by
  simp [fsInsert, entriesAt, entriesAt_fsRemove_self]

/-! ### Prune service (`pkg/prune`, `PruneService.PruneContainers`) -/

/-- A container as reported by `docker ps` (name, status, image). -/
structure DockerContainer where
  name : String
  status : String
  image : String
deriving DecidableEq, Repr

/-- The namespaced names `yourpm-{n}` of the desired containers
(the `configContainers` map built from `opts.Config.Containers`). -/
def namespacedNames (cfgContainers : List String) : List String :=
  cfgContainers.map (fun n => "yourpm-" ++ n)

/-- The removal loop of `PruneService.PruneContainers`: a container is
kept iff (not aggressive) and its name is a desired namespaced name and
`IsRunning` reports it running; every other container has `Remove`
called on it.  Returns (kept names, names removal was attempted on),
in listing order. -/
def pruneLoop (aggressive : Bool) (nsNames : List String) (running : String → Bool) :
    List DockerContainer → List String × List String
  | [] => ([], [])
  | c :: rest =>
    let kr := pruneLoop aggressive nsNames running rest
    if !aggressive && nsNames.contains c.name && running c.name then
      (c.name :: kr.1, kr.2)
    else
      (kr.1, c.name :: kr.2)

/-- `PruneService.PruneContainers`: list the instances under the
`yourpm-` namespace, then run the removal loop against the desired
configuration's container names. -/
def PruneContainers (aggressive : Bool) (cfgContainers : List String)
    (running : String → Bool) (cs : List DockerContainer) : List String × List String :=
  pruneLoop aggressive (namespacedNames cfgContainers) running cs

/-! ### Container lifecycle reconciler (`cmd/container-exec/main.go`,
`ensureContainerRunning`) -/

/-- A mutating call issued to the container runtime adapter. -/
inductive DockerCall where
  | create (name image : String)
  | remove (name : String)
  | start (name : String)
deriving DecidableEq, Repr

/-- The runtime adapter as seen by one `ensureContainerRunning` call:
the answers its queries will get, and whether each mutating call
would succeed. -/
structure Runtime where
  present : String → Bool
  currentImage : String → Option String
  running : String → Bool
  removeOk : Bool
  startOk : Bool
  createOk : Bool

/-- `ensureContainerRunning(containerName, image, containerDef)`:
returns the adapter calls issued, in order, and whether the whole call
succeeded.  `currentImage = none` models a `GetContainerImage` error. -/
def ensureContainerRunning (rt : Runtime) (name image : String) : List DockerCall × Bool :=
  if rt.present name then
    match rt.currentImage name with
    | none => ([], false)
    | some cur =>
      if cur ≠ image then
        if rt.removeOk then ([.remove name, .create name image], rt.createOk)
        else ([.remove name], false)
      else if !(rt.running name) then ([.start name], rt.startOk)
      else ([], true)
  else ([.create name image], rt.createOk)

/-! ### Docker client name queries (`pkg/docker/client.go`,
`IsRunning` / `Exists`) -/

/-- The output of `docker ps --format` with one container name per
line (each line newline-terminated). -/
def psOutput (names : List String) : String :=
  names.foldr (fun n acc => n ++ "\n" ++ acc) ""

/-- `strings.Contains`: the needle occurs as a contiguous substring. -/
def goContains (s sub : String) : Bool :=
  decide (sub.data <:+: s.data)

/-- `DefaultDockerClient.IsRunning`: run `docker ps`, return `false` on
a listing error, otherwise check the name by substring containment. -/
def IsRunning (psResult : Option (List String)) (name : String) : Bool :=
  match psResult with
  | none => false
  | some names => goContains (psOutput names) name

/-- `DefaultDockerClient.Exists`: same as `IsRunning` but over
`docker ps -a` (all containers, running or stopped). -/
def containerExists (psAllResult : Option (List String)) (name : String) : Bool :=
  match psAllResult with
  | none => false
  | some names => goContains (psOutput names) name

/-! ### Content store (`pkg/store/store.go`) -/

/-- `strings.HasPrefix` on path-free strings. -/
def goStartsWith (s pre : String) : Bool :=
  decide (pre.data <+: s.data)

/-- `strings.HasSuffix`. -/
def goEndsWith (s post : String) : Bool :=
  decide (post.data <:+ s.data)

/-- The deterministic store path `{root}/{name}-{version}`. -/
def storePathOf (root : Path) (name version : String) : Path :=
  root ++ [name ++ "-" ++ version]

/-- `Store.InstallBinary` (pkg/store/store.go:20-38): make
`storePath/bin`, copy the downloaded file to `storePath/bin/{name}`
and mark it executable.  Note: no existence fast path — the copy is
re-done on every call. -/
def InstallBinary (fs : FS) (root : Path) (name version : String) (downloadPath : Path) :
    Except String (FS × Path) :=
  let storePath := storePathOf root name version
  let binDir := storePath ++ ["bin"]
  let fs1 := mkdirAll (mkdirAll fs storePath) binDir
  match fsFind fs1 downloadPath with
  | some (.file c _) => .ok (fsInsert fs1 (binDir ++ [name]) (.file c true), storePath)
  | _ => .error "copy failed"

/-- A source file whose name ends in `.tar.gz` or `.tgz` is installed
as an archive. -/
def isArchiveName (s : String) : Bool :=
  goEndsWith s ".tar.gz" || goEndsWith s ".tgz"

/-- Depth-first search of the extracted tree for a file whose base
name matches the requested binary name. -/
def findEntry (entries : List (Path × String)) (b : String) : Option String :=
  (entries.find? (fun e => e.1.getLast? = some b)).map (·.2)

/-- Locate every desired binary in the archive, failing (naming the
missing binary) if one is absent after the full walk. -/
def placeBinaries (entries : List (Path × String)) : List String → Except String (List (String × String))
  | [] => .ok []
  | b :: rest =>
    match findEntry entries b with
    | none => .error ("binary " ++ b ++ " not found in archive")
    | some data =>
      match placeBinaries entries rest with
      | .ok files => .ok ((b, data) :: files)
      | .error e => .error e

/-- Move the located binaries to `storePath/{binary}`, each executable. -/
def installFiles (fs : FS) (sp : Path) (files : List (String × String)) : FS :=
  files.foldl (fun f bd => fsInsert f (sp ++ [bd.1]) (.file (.bytes bd.2) true)) fs

/-- Modelled from the spec: `Store.Install(name, version, sourcePath,
desiredBinaries)` (spec §4.1, Content Store) is absent from the given
source files — only its call sites appear (`st.Install(name, version,
cachePath, pkgDef.Binaries.Names)` in the `Switch` commands); the
3-argument `InstallBinary` above is a distinct variant.  Following the
spec's words: the target store path is `{name}-{version}` under the
store root; if it already exists it is returned unchanged — existence
is the sole idempotency check; otherwise a `.tar.gz`/`.tgz` source is
extracted and each desired binary is located by base name and moved to
`storePath/{binary}`, executable, failing with an install error naming
any missing binary; any other source is a single binary, copied in as
`storePath/{name}` and marked executable. -/
def Install (fs : FS) (root : Path) (name version : String) (src : Path)
    (desired : List String) : Except String (FS × Path) :=
  let sp := storePathOf root name version
  if (fsFind fs sp).isSome then .ok (fs, sp)
  else
    match fsFind fs src with
    | some (.file c _) =>
      if isArchiveName ((src.getLast?).getD "") then
        match c with
        | .archive entries =>
          match placeBinaries entries desired with
          | .ok files => .ok (installFiles (fsInsert fs sp .dir) sp files, sp)
          | .error e => .error e
        | .bytes _ => .error "archive unreadable"
      else
        .ok (fsInsert (fsInsert fs sp .dir) (sp ++ [name]) (.file c true), sp)
    | _ => .error "source file missing"

/-- The binary names a store entry claims to expose: the desired
binaries for an archive install, the package name for a single-binary
install (spec §4.1). -/
def exposedNames (src : Path) (name : String) (desired : List String) : List String :=
  if isArchiveName ((src.getLast?).getD "") then desired else [name]

/-! ### Fetcher (`pkg/repository`, `GithubRepository.DownloadFile`) -/

/-- The temporary download path `dest + ".tmp"`. -/
def tmpPath (dest : Path) : Path :=
  dest.dropLast ++ [(dest.getLast?).getD "" ++ ".tmp"]

/-- `GithubRepository.DownloadFile` (the repository variant without a
`MkdirAll`): a no-op success if `dest` already exists; `resp = none`
models a request-creation or network error — the code returns `nil`
(success) there, where its `HttpRepository` sibling returns the
error; a non-200 status is an error; otherwise the body is written to
`dest + ".tmp"` (removed again if the copy fails) and renamed onto
`dest`.  Returns the new filesystem and whether the call reported
success. -/
def githubDownloadFile (fs : FS) (dest : Path) (resp : Option (Nat × String))
    (copyOk : Bool) : FS × Bool :=
  match statR fs statFuel dest with
  | .found _ => (fs, true)
  | _ =>
    match resp with
    | none => (fs, true)
    | some (status, body) =>
      if status ≠ 200 then (fs, false)
      else
        let tmp := tmpPath dest
        if copyOk then
          (fsInsert (fsRemove (fsInsert fs tmp (.file (.bytes body) false)) tmp) dest
            (.file (.bytes body) false), true)
        else
          (fsRemove (fsInsert fs tmp (.file (.bytes body) false)) tmp, false)

/-! ### Symlink garbage collector (`pkg/symlinks/manager.go`) -/

/-- The active profile's bin directory `{base}/profiles/default/bin`. -/
def profileBinOf (base : Path) : Path := base ++ ["profiles", "default", "bin"]

/-- The store root `{base}/store`. -/
def storeRootOf (base : Path) : Path := base ++ ["store"]

/-- The shared container-executor binary `{base}/bin/container-exec`. -/
def containerExecOf (base : Path) : Path := base ++ ["bin", "container-exec"]

/-- `shouldRemoveSymlink` (pkg/symlinks/manager.go:74-134): not a
symlink → keep; broken (the stat after following links finds nothing)
→ remove; target not under the store root → keep; the file at
`store/{dir}/{baseName}` not itself a symlink to the container
executor → keep; otherwise remove unless some active container name
is a prefix of `{dir}-`. -/
def shouldRemoveSymlink (fs : FS) (base : Path) (cfgNames : List String)
    (entryName : String) : Bool :=
  match fsFind fs (profileBinOf base ++ [entryName]) with
  | some (.symlink target) =>
    match statR fs statFuel (profileBinOf base ++ [entryName]) with
    | .notExist => true
    | _ =>
      if decide (storeRootOf base <+: target) then
        match target.drop (storeRootOf base).length with
        | [] => false
        | d :: rest =>
          match fsFind fs (storeRootOf base ++ [d, (d :: rest).getLast (List.cons_ne_nil d rest)]) with
          | some (.symlink lt) =>
            if lt = containerExecOf base then
              if cfgNames.any (fun n => goStartsWith d (n ++ "-")) then false else true
            else false
          | _ => false
      else false
  | _ => false

/-- The names of the entries directly inside a directory
(`os.ReadDir`). -/
def profileEntries (fs : FS) (d : Path) : List String :=
  fs.filterMap (fun e => if e.1.dropLast = d then e.1.getLast? else none)

/-- The removal loop of `CleanupOrphanedSymlinks`: apply the removal
predicate to each listed entry against the current filesystem,
removing as it goes. -/
def sweep (base : Path) (cfg : List String) : List String → FS → FS
  | [], fs => fs
  | e :: rest, fs =>
    if shouldRemoveSymlink fs base cfg e then
      sweep base cfg rest (fsRemove fs (profileBinOf base ++ [e]))
    else
      sweep base cfg rest fs

/-- `SymlinkManager.CleanupOrphanedSymlinks`: a no-op if the profile
bin directory does not exist, otherwise the removal loop over its
entries. -/
def CleanupOrphanedSymlinks (fs : FS) (base : Path) (cfg : List String) : FS :=
  match statR fs statFuel (profileBinOf base) with
  | .notExist => fs
  | _ => sweep base cfg (profileEntries fs (profileBinOf base)) fs

/-! ## Support lemmas for the content store -/

theorem fsFind_installFiles_sp (sp : Path) (files : List (String × String)) (f : FS) :
    fsFind (installFiles f sp files) sp = fsFind f sp := by
  induction files generalizing f with
  | nil => rfl
  | cons bd rest ih =>
    have hstep : installFiles f sp (bd :: rest)
        = installFiles (fsInsert f (sp ++ [bd.1]) (.file (.bytes bd.2) true)) sp rest := rfl
    rw [hstep, ih, fsFind_fsInsert, if_neg (by simp)]

theorem install_ok_found (fs fs1 : FS) (root : Path) (name version : String) (src : Path)
    (desired : List String) (p : Path)
    (h : Install fs root name version src desired = .ok (fs1, p)) :
    p = storePathOf root name version
      ∧ (fsFind fs1 (storePathOf root name version)).isSome = true := by
  unfold Install at h
  by_cases h0 : (fsFind fs (storePathOf root name version)).isSome = true
  · rw [if_pos h0] at h
    simp only [Except.ok.injEq, Prod.mk.injEq] at h
    exact ⟨h.2.symm, h.1 ▸ h0⟩
  · rw [if_neg h0] at h
    cases hsrc : fsFind fs src with
    | none => rw [hsrc] at h; simp at h
    | some nd =>
      rw [hsrc] at h
      cases nd with
      | dir => simp at h
      | symlink t => simp at h
      | file c e =>
        simp only [] at h
        by_cases harc : isArchiveName ((src.getLast?).getD "") = true
        · rw [if_pos harc] at h
          cases c with
          | bytes d => simp at h
          | archive entries =>
            simp only [] at h
            cases hpb : placeBinaries entries desired with
            | error msg => rw [hpb] at h; simp at h
            | ok files =>
              rw [hpb] at h
              simp only [Except.ok.injEq, Prod.mk.injEq] at h
              refine ⟨h.2.symm, ?_⟩
              rw [← h.1, fsFind_installFiles_sp, fsFind_fsInsert, if_pos rfl]
              rfl
        · rw [if_neg harc] at h
          simp only [Except.ok.injEq, Prod.mk.injEq] at h
          refine ⟨h.2.symm, ?_⟩
          rw [← h.1, fsFind_fsInsert, if_neg (by simp), fsFind_fsInsert, if_pos rfl]
          rfl

/-! ## Claim theorems -/

/-- C1: a second `Install` with the identical `(name, version,
sourcePath)` (and desired binaries) returns the same store path and
performs no work: the store path already exists after the first call,
so the second call returns the filesystem unchanged (existence is the
sole idempotency check). -/
theorem install_idempotent (fs fs1 : FS) (root : Path) (name version : String)
    (src : Path) (desired : List String) (p : Path)
    (h : Install fs root name version src desired = .ok (fs1, p)) :
    p = storePathOf root name version
      ∧ Install fs1 root name version src desired = .ok (fs1, p) := by
  obtain ⟨hp, hfound⟩ := install_ok_found fs fs1 root name version src desired p h
  subst hp
  refine ⟨rfl, ?_⟩
  unfold Install
  rw [if_pos hfound]

/-- The cache for the C1 witness: a single raw binary at
`cache/jq`. -/
def wBinCache : FS := [(["cache", "jq"], .file (.bytes "elf") false)]

/-- The store state after the first C1 witness install. -/
def wBinStore : FS :=
  fsInsert (fsInsert wBinCache (storePathOf ["store"] "jq" "1") .dir)
    (storePathOf ["store"] "jq" "1" ++ ["jq"]) (.file (.bytes "elf") true)

/-- Witness for C1: a concrete first install succeeds, and the second
identical call returns the same path and the unchanged filesystem. -/
theorem install_idempotent_witness :
    Install wBinCache ["store"] "jq" "1" ["cache", "jq"] ["jq"]
        = .ok (wBinStore, ["store", "jq-1"])
      ∧ (["store", "jq-1"] = storePathOf ["store"] "jq" "1"
        ∧ Install wBinStore ["store"] "jq" "1" ["cache", "jq"] ["jq"]
            = .ok (wBinStore, ["store", "jq-1"])) :=
  ⟨rfl, install_idempotent wBinCache wBinStore ["store"] "jq" "1" ["cache", "jq"] ["jq"]
    ["store", "jq-1"] rfl⟩

/-- Lemma for C4: the linking loop leaves paths that are not of the
form `binDir/x` (for a linked `x`) untouched. -/
theorem linkAll_find_ne (binDir sp : Path) (bins : List String) (f : FS) (q : Path)
    (hq : ∀ x ∈ bins, q ≠ binDir ++ [x]) :
    fsFind (linkAll binDir sp bins f) q = fsFind f q := by
  induction bins generalizing f with
  | nil => rfl
  | cons b rest ih =>
    have hstep : linkAll binDir sp (b :: rest) f
        = linkAll binDir sp rest (fsInsert f (binDir ++ [b]) (.symlink (sp ++ [b]))) := rfl
    rw [hstep, ih _ (fun x hx => hq x (List.mem_cons_of_mem b hx)), fsFind_fsInsert,
      if_neg (fun hh => hq b (List.mem_cons_self b rest) hh.symm)]

/-- Lemma for C4: after the linking loop, every linked binary has a
profile symlink to `storePath/binary`. -/
theorem linkAll_find_mem (binDir sp : Path) (bins : List String) (f : FS) (b : String)
    (hb : b ∈ bins) :
    fsFind (linkAll binDir sp bins f) (binDir ++ [b]) = some (.symlink (sp ++ [b])) := by
  induction bins generalizing f with
  | nil => cases hb
  | cons x rest ih =>
    have hstep : linkAll binDir sp (x :: rest) f
        = linkAll binDir sp rest (fsInsert f (binDir ++ [x]) (.symlink (sp ++ [x]))) := rfl
    rw [hstep]
    by_cases hr : b ∈ rest
    · exact ih _ hr
    · have hbx : b = x := by
        rcases List.mem_cons.mp hb with h | h
        · exact h
        · exact absurd h hr
      subst hbx
      have hq : ∀ y ∈ rest, binDir ++ [b] ≠ binDir ++ [y] := by
        intro y hy hh
        have h2 : b = y := by simpa using List.append_cancel_left hh
        exact hr (h2 ▸ hy)
      rw [linkAll_find_ne binDir sp rest _ _ hq, fsFind_fsInsert, if_pos rfl]

/-- Lemma for C4: `os.MkdirAll` never changes a path that already
holds a node. -/
theorem fsFind_mkdirAll_of_found (f : FS) (q r : Path) (n : Node)
    (h : fsFind f r = some n) : fsFind (mkdirAll f q) r = some n := by
  unfold mkdirAll
  cases hf : fsFind f q with
  | some m => exact h
  | none =>
    rw [fsFind_fsInsert]
    split
    · next hqr => rw [← hqr] at h; rw [hf] at h; cases h
    · exact h

/-- Lemma for C4: a successful `placeBinaries` pass locates every
desired binary. -/
theorem placeBinaries_covers (entries : List (Path × String)) (desired : List String)
    (files : List (String × String)) (h : placeBinaries entries desired = .ok files)
    (b : String) (hb : b ∈ desired) : ∃ d, (b, d) ∈ files := by
  induction desired generalizing files with
  | nil => cases hb
  | cons x rest ih =>
    unfold placeBinaries at h
    cases hfe : findEntry entries x with
    | none => rw [hfe] at h; cases h
    | some data =>
      rw [hfe] at h
      cases hpb : placeBinaries entries rest with
      | error msg => rw [hpb] at h; cases h
      | ok tl =>
        rw [hpb] at h
        simp only [Except.ok.injEq] at h
        subst h
        rcases List.mem_cons.mp hb with hbx | hbr
        · exact ⟨data, by rw [hbx]; exact List.mem_cons_self _ _⟩
        · obtain ⟨d, hd⟩ := ih tl hpb hbr
          exact ⟨d, List.mem_cons_of_mem _ hd⟩

/-- Lemma for C4: after `installFiles`, every placed binary is an
executable regular file at `storePath/binary`. -/
theorem installFiles_find_mem (sp : Path) (files : List (String × String)) (f : FS)
    (b : String)
    (h : (∃ d, (b, d) ∈ files) ∨ ∃ c, fsFind f (sp ++ [b]) = some (.file c true)) :
    ∃ c, fsFind (installFiles f sp files) (sp ++ [b]) = some (.file c true) := by
  induction files generalizing f with
  | nil =>
    rcases h with ⟨d, hd⟩ | hc
    · cases hd
    · exact hc
  | cons bd rest ih =>
    have hstep : installFiles f sp (bd :: rest)
        = installFiles (fsInsert f (sp ++ [bd.1]) (.file (.bytes bd.2) true)) sp rest := rfl
    rw [hstep]
    by_cases hbb : b = bd.1
    · subst hbb
      refine ih _ (Or.inr ⟨.bytes bd.2, ?_⟩)
      rw [fsFind_fsInsert, if_pos rfl]
    · refine ih _ ?_
      rcases h with ⟨d, hd⟩ | ⟨c, hc⟩
      · rcases List.mem_cons.mp hd with hd1 | hd2
        · exact absurd (congrArg Prod.fst hd1) hbb
        · exact Or.inl ⟨d, hd2⟩
      · refine Or.inr ⟨c, ?_⟩
        rw [fsFind_fsInsert, if_neg, hc]
        intro hh
        exact hbb (by simpa [List.cons_eq_cons] using (List.append_right_inj sp).mp hh.symm)

/-- C4: a successful fresh install places, for every binary name the
entry claims to expose, an executable regular file directly at
`storePath/binary`; and the profile link `Link` then creates for that
name is a symlink whose target `storePath/binary` still resolves to
that executable file. -/
theorem install_link_exposes_executables (fs fs1 : FS) (root profileRoot : Path)
    (name version : String) (src : Path) (desired : List String) (p : Path)
    (hfresh : fsFind fs (storePathOf root name version) = none)
    (h : Install fs root name version src desired = .ok (fs1, p))
    (hne : profileRoot ++ ["bin"] ≠ p) :
    ∀ b ∈ exposedNames src name desired,
      ∃ c, fsFind fs1 (p ++ [b]) = some (.file c true)
        ∧ fsFind (Link fs1 profileRoot p (exposedNames src name desired))
            (profileRoot ++ ["bin", b]) = some (.symlink (p ++ [b]))
        ∧ fsFind (Link fs1 profileRoot p (exposedNames src name desired))
            (p ++ [b]) = some (.file c true) := by
  intro b hb
  have hp : p = storePathOf root name version :=
    (install_ok_found fs fs1 root name version src desired p h).1
  subst hp
  -- Step 1: the store entry holds an executable file at `storePath/b`.
  have hstore : ∃ c, fsFind fs1 (storePathOf root name version ++ [b])
      = some (.file c true) := by
    unfold Install at h
    rw [if_neg (by rw [hfresh]; simp)] at h
    cases hsrc : fsFind fs src with
    | none => rw [hsrc] at h; simp at h
    | some nd =>
      rw [hsrc] at h
      cases nd with
      | dir => simp at h
      | symlink t => simp at h
      | file c e =>
        simp only [] at h
        by_cases harc : isArchiveName ((src.getLast?).getD "") = true
        · rw [if_pos harc] at h
          cases c with
          | bytes d => simp at h
          | archive entries =>
            simp only [] at h
            cases hpb : placeBinaries entries desired with
            | error msg => rw [hpb] at h; simp at h
            | ok files =>
              rw [hpb] at h
              simp only [Except.ok.injEq, Prod.mk.injEq] at h
              rw [← h.1]
              have hbdes : b ∈ desired := by
                simpa [exposedNames, harc] using hb
              exact installFiles_find_mem _ _ _ _
                (Or.inl (placeBinaries_covers entries desired files hpb b hbdes))
        · rw [if_neg harc] at h
          simp only [Except.ok.injEq, Prod.mk.injEq] at h
          have hbn : b = name := by
            simpa [exposedNames, harc] using hb
          subst hbn
          rw [← h.1, fsFind_fsInsert, if_pos rfl]
          exact ⟨c, rfl⟩
  obtain ⟨c, hc⟩ := hstore
  refine ⟨c, hc, ?_, ?_⟩
  -- Step 2: the profile link exists and targets `storePath/b`.
  · have hassoc : profileRoot ++ ["bin", b] = (profileRoot ++ ["bin"]) ++ [b] := by simp
    rw [hassoc]
    exact linkAll_find_mem _ _ _ _ _ hb
  -- Step 3: linking does not disturb the store entry.
  · unfold Link
    have hq : ∀ x ∈ exposedNames src name desired,
        storePathOf root name version ++ [b] ≠ (profileRoot ++ ["bin"]) ++ [x] := by
      intro x hx hh
      exact hne ((List.append_inj' hh rfl).1).symm
    rw [linkAll_find_ne _ _ _ _ _ hq]
    exact fsFind_mkdirAll_of_found _ _ _ _ hc

/-- The cache for the C4 witness: an archive `cache/jq.tgz` holding
`tools/bin/jq` and `tools/README`. -/
def wArchCache : FS :=
  [(["cache", "jq.tgz"],
    .file (.archive [(["tools", "bin", "jq"], "jqdata"), (["tools", "README"], "rd")]) false)]

/-- The store state after the C4 witness install. -/
def wArchStore : FS :=
  installFiles (fsInsert wArchCache (storePathOf ["store"] "jq" "1.7" ) .dir)
    (storePathOf ["store"] "jq" "1.7") [("jq", "jqdata")]

/-- Witness for C4 at a concrete archive install of `jq`. -/
theorem install_link_exposes_executables_witness :
    ∃ c, fsFind wArchStore (["store", "jq-1.7"] ++ ["jq"]) = some (.file c true)
      ∧ fsFind (Link wArchStore ["profiles", "default"] ["store", "jq-1.7"]
          (exposedNames ["cache", "jq.tgz"] "jq" ["jq"]))
          (["profiles", "default"] ++ ["bin", "jq"]) = some (.symlink (["store", "jq-1.7"] ++ ["jq"]))
      ∧ fsFind (Link wArchStore ["profiles", "default"] ["store", "jq-1.7"]
          (exposedNames ["cache", "jq.tgz"] "jq" ["jq"]))
          (["store", "jq-1.7"] ++ ["jq"]) = some (.file c true) :=
  install_link_exposes_executables wArchCache wArchStore ["store"] ["profiles", "default"]
    "jq" "1.7" ["cache", "jq.tgz"] ["jq"] ["store", "jq-1.7"] rfl rfl (by decide)
    "jq" (by decide)

/-- C5: linking command `name` to store path `A` and then to store
path `B` leaves exactly one entry named `name` in the profile bin
directory: a symlink whose target is `B/name`.  The prior entry is
removed first, so no duplicate and no leftover link to `A` remains. -/
theorem link_last_writer_wins (fs : FS) (profileRoot A B : Path) (name : String) :
    entriesAt (Link (Link fs profileRoot A [name]) profileRoot B [name])
        (profileRoot ++ ["bin", name])
      = [(profileRoot ++ ["bin", name], .symlink (B ++ [name]))] := by
  have h : profileRoot ++ ["bin", name] = (profileRoot ++ ["bin"]) ++ [name] := by simp
  rw [h]
  simp [Link, linkAll, entriesAt_fsInsert_self]

/-- C2: for every desired configuration and every listed instance
under the tool's namespace, non-aggressive `PruneContainers` keeps an
instance iff its name is the namespaced name of a desired container
and it is currently running; every other instance has `Remove` called
on it. -/
theorem prune_selective_keeps_running_desired (cfg : List String)
    (running : String → Bool) (cs : List DockerContainer) :
    (PruneContainers false cfg running cs).1
        = (cs.filter (fun c => (namespacedNames cfg).contains c.name && running c.name)).map
            (fun c => c.name)
      ∧ (PruneContainers false cfg running cs).2
        = (cs.filter (fun c => !((namespacedNames cfg).contains c.name && running c.name))).map
            (fun c => c.name) := by
  unfold PruneContainers
  induction cs with
  | nil => exact ⟨rfl, rfl⟩
  | cons c rest ih =>
    by_cases h : c.name ∈ namespacedNames cfg ∧ running c.name = true
    · simp [pruneLoop, List.filter_cons, ih.1, ih.2, h, h.1, h.2]
    · rcases Decidable.not_and_iff_or_not.mp h with h1 | h1 <;>
        simp [pruneLoop, List.filter_cons, ih.1, ih.2, h, h1]

/-- C3: a container that exists whose current image differs from the
desired image is reconciled by exactly one forced remove followed by
exactly one create with the desired image; no start call is issued. -/
theorem ensure_image_change_recreates (rt : Runtime) (name image cur : String)
    (h1 : rt.present name = true) (h2 : rt.currentImage name = some cur)
    (h3 : cur ≠ image) (h4 : rt.removeOk = true) :
    (ensureContainerRunning rt name image).1 = [.remove name, .create name image]
      ∧ ∀ n, DockerCall.start n ∉ (ensureContainerRunning rt name image).1 := by
  simp [ensureContainerRunning, h1, h2, h3, h4]

/-- A concrete runtime: container present, running image `x:1`, not
running, all mutating calls succeed. -/
def rtImageDrift : Runtime :=
  ⟨fun _ => true, fun _ => some "x:1", fun _ => false, true, true, true⟩

/-- Witness for C3 at a concrete runtime and image pair. -/
theorem ensure_image_change_recreates_witness :
    (ensureContainerRunning rtImageDrift "yourpm-x" "x:2").1
        = [.remove "yourpm-x", .create "yourpm-x" "x:2"]
      ∧ ∀ n, DockerCall.start n ∉ (ensureContainerRunning rtImageDrift "yourpm-x" "x:2").1 :=
  ensure_image_change_recreates rtImageDrift "yourpm-x" "x:2" "x:1" rfl rfl (by decide) rfl

/-- C8: a container that exists, is running, and already has the
desired image is reconciled without any mutating adapter call: no
create, no remove, no start, and the call succeeds. -/
theorem ensure_converged_no_calls (rt : Runtime) (name image : String)
    (h1 : rt.present name = true) (h2 : rt.currentImage name = some image)
    (h3 : rt.running name = true) :
    ensureContainerRunning rt name image = ([], true) := by
  simp [ensureContainerRunning, h1, h2, h3]

/-- A concrete runtime: container present, running the desired image. -/
def rtConverged : Runtime :=
  ⟨fun _ => true, fun _ => some "x:1", fun _ => true, true, true, true⟩

/-- Witness for C8 at a concrete runtime. -/
theorem ensure_converged_no_calls_witness :
    ensureContainerRunning rtConverged "yourpm-x" "x:1" = ([], true) :=
  ensure_converged_no_calls rtConverged "yourpm-x" "x:1" rfl rfl rfl

/-- C9 (code bug): with `dest` absent and the network request failing,
`GithubRepository.DownloadFile` returns `nil` (success) instead of an
error — the claim (and the spec's Fetcher contract) require an error
on a failed request.  No file is produced at `dest`. -/
theorem github_download_hides_network_failure :
    githubDownloadFile [] ["home", "cache", "pkg"] none true = ([], true)
      ∧ fsFind ([] : FS) ["home", "cache", "pkg"] = none :=
  ⟨rfl, rfl⟩

/-- `f` refines `fs` by removals only: every lookup in `f` either
agrees with `fs` or finds nothing. -/
def fsSub (f fs : FS) : Prop :=
  ∀ q, fsFind f q = fsFind fs q ∨ fsFind f q = none

theorem fsSub_refl (fs : FS) : fsSub fs fs := fun _ => Or.inl rfl

theorem fsSub_remove (f fs : FS) (p : Path) (h : fsSub f fs) : fsSub (fsRemove f p) fs := by
  intro q
  rw [fsFind_fsRemove]
  by_cases hq : p = q
  · exact Or.inr (if_pos hq)
  · rw [if_neg hq]
    exact h q

/-- Removing entries can only break path resolution, never repair it:
a path that does not resolve keeps not resolving in any
removal-refinement. -/
theorem statR_notExist_mono (fs f : FS) (hsub : fsSub f fs) :
    ∀ fuel p, statR fs fuel p = .notExist → statR f fuel p = .notExist := by
  intro fuel
  induction fuel with
  | zero => intro p h; cases h
  | succ n ih =>
    intro p h
    have hstep : statR fs (n + 1) p = match fsFind fs p with
        | none => .notExist
        | some (.symlink t) => statR fs n t
        | some m => .found m := rfl
    have hstepf : statR f (n + 1) p = match fsFind f p with
        | none => .notExist
        | some (.symlink t) => statR f n t
        | some m => .found m := rfl
    rw [hstep] at h
    rw [hstepf]
    rcases hsub p with hq | hq
    · rw [hq]
      cases hfs : fsFind fs p with
      | none => rfl
      | some m =>
        rw [hfs] at h
        cases m with
        | symlink t => exact ih t h
        | file c e => cases h
        | dir => cases h
    · rw [hq]

/-- Once an entry is gone from the profile bin directory, the rest of
the sweep never brings it back. -/
theorem sweep_preserves_none (base : Path) (cfg : List String) (P : Path) :
    ∀ (entries : List String) (f : FS), fsFind f P = none →
      fsFind (sweep base cfg entries f) P = none := by
  intro entries
  induction entries with
  | nil => intro f h; exact h
  | cons e rest ih =>
    intro f h
    unfold sweep
    by_cases hsr : shouldRemoveSymlink f base cfg e = true
    · rw [if_pos hsr]
      refine ih _ ?_
      rw [fsFind_fsRemove]
      split
      · rfl
      · exact h
    · rw [if_neg hsr]
      exact ih _ h

/-- Lemma for C7: if the profile entry named `name` is a symlink that
is broken in the initial filesystem, the sweep removes it whenever its
name is in the processed list, regardless of the configuration. -/
theorem sweep_removes_broken (fs : FS) (base : Path) (cfg : List String)
    (name : String) (t : Path)
    (hlink : fsFind fs (profileBinOf base ++ [name]) = some (.symlink t))
    (hbroken : statR fs statFuel (profileBinOf base ++ [name]) = .notExist) :
    ∀ (entries : List String) (f : FS), fsSub f fs → name ∈ entries →
      fsFind (sweep base cfg entries f) (profileBinOf base ++ [name]) = none := by
  intro entries
  induction entries with
  | nil => intro f _ hm; cases hm
  | cons e rest ih =>
    intro f hsub hm
    unfold sweep
    by_cases he : e = name
    · subst he
      rcases hsub (profileBinOf base ++ [e]) with hq | hq
      · rw [hlink] at hq
        have hstat : statR f statFuel (profileBinOf base ++ [e]) = .notExist :=
          statR_notExist_mono fs f hsub statFuel _ hbroken
        have hsr : shouldRemoveSymlink f base cfg e = true := by
          unfold shouldRemoveSymlink
          rw [hq, hstat]
        rw [if_pos hsr]
        refine sweep_preserves_none base cfg _ rest _ ?_
        rw [fsFind_fsRemove, if_pos rfl]
      · by_cases hsr : shouldRemoveSymlink f base cfg e = true
        · rw [if_pos hsr]
          refine sweep_preserves_none base cfg _ rest _ ?_
          rw [fsFind_fsRemove]
          split
          · rfl
          · exact hq
        · rw [if_neg hsr]
          exact sweep_preserves_none base cfg _ rest _ hq
    · have hm' : name ∈ rest := by
        rcases List.mem_cons.mp hm with h1 | h1
        · exact absurd h1.symm he
        · exact h1
      by_cases hsr : shouldRemoveSymlink f base cfg e = true
      · rw [if_pos hsr]
        exact ih _ (fsSub_remove f fs _ hsub) hm'
      · rw [if_neg hsr]
        exact ih _ hsub hm'

theorem fsFind_mem (fs : FS) (p : Path) (v : Node) (h : fsFind fs p = some v) :
    (p, v) ∈ fs := by
  induction fs with
  | nil => cases h
  | cons e rest ih =>
    unfold fsFind at h
    by_cases he : e.1 = p
    · rw [if_pos he] at h
      injection h with h2
      rw [← h2, ← he, Prod.mk.eta]
      exact List.mem_cons_self e rest
    · rw [if_neg he] at h
      exact List.mem_cons_of_mem e (ih h)

theorem mem_profileEntries (fs : FS) (d : Path) (n : String) (v : Node)
    (h : fsFind fs (d ++ [n]) = some v) : n ∈ profileEntries fs d := by
  refine List.mem_filterMap.mpr ⟨(d ++ [n], v), fsFind_mem fs _ v h, ?_⟩
  simp

/-- C7 (amended): a profile bin entry that is a symlink whose target
chain ends at a nonexistent path (the stat fails with not-exist — a
dangling link) is removed by one `CleanupOrphanedSymlinks` pass, for
every desired configuration.  A link whose resolution fails with a
symlink loop is not treated as broken by the code (only the not-exist
stat failure triggers the broken-link removal). -/
theorem cleanup_removes_broken_link (fs : FS) (base : Path) (cfg : List String)
    (name : String) (t : Path)
    (hdir : fsFind fs (profileBinOf base) = some .dir)
    (hlink : fsFind fs (profileBinOf base ++ [name]) = some (.symlink t))
    (hbroken : statR fs statFuel (profileBinOf base ++ [name]) = .notExist) :
    fsFind (CleanupOrphanedSymlinks fs base cfg) (profileBinOf base ++ [name]) = none := by
  have hstat : statR fs statFuel (profileBinOf base) = .found .dir := by
    rw [show statFuel = 39 + 1 from rfl]
    have hstep : statR fs (39 + 1) (profileBinOf base) = match fsFind fs (profileBinOf base) with
        | none => .notExist
        | some (.symlink u) => statR fs 39 u
        | some m => .found m := rfl
    rw [hstep, hdir]
  unfold CleanupOrphanedSymlinks
  rw [hstat]
  exact sweep_removes_broken fs base cfg name t hlink hbroken _ fs (fsSub_refl fs)
    (mem_profileEntries fs _ name _ hlink)

/-- The filesystem for the C7 witness: a profile bin directory holding
one dangling symlink into the store. -/
def wBrokenFS : FS :=
  [(["h", "profiles", "default", "bin"], .dir),
   (["h", "profiles", "default", "bin", "old"], .symlink ["h", "store", "x-1", "old"])]

/-- Witness for C7: the dangling link `old` is removed by one pass
with an empty desired configuration. -/
theorem cleanup_removes_broken_link_witness :
    fsFind (CleanupOrphanedSymlinks wBrokenFS ["h"] [])
      (profileBinOf ["h"] ++ ["old"]) = none :=
  cleanup_removes_broken_link wBrokenFS ["h"] [] "old" ["h", "store", "x-1", "old"]
    rfl rfl (by decide)

/-- The filesystem for the C7 counterexample: the profile bin
directory holds the symlink `a` pointing at itself. -/
def wLoopFS : FS :=
  [(["h", "profiles", "default", "bin"], .dir),
   (["h", "profiles", "default", "bin", "a"],
    .symlink ["h", "profiles", "default", "bin", "a"])]

/-- C7 counterexample: the profile bin entry `a` is a symlink whose
target does not resolve (its resolution fails with a symlink loop, as
`os.Stat` would with ELOOP), yet one `CleanupOrphanedSymlinks` pass
leaves the filesystem unchanged — the code removes a link as broken
only when the stat failure is specifically not-exist, and a loop
whose target is outside the store root is then kept. -/
theorem cleanup_keeps_symlink_loop :
    fsFind wLoopFS (profileBinOf ["h"] ++ ["a"])
        = some (.symlink (profileBinOf ["h"] ++ ["a"]))
      ∧ statR wLoopFS statFuel (profileBinOf ["h"] ++ ["a"]) = .loop
      ∧ CleanupOrphanedSymlinks wLoopFS ["h"] [] = wLoopFS := by
  refine ⟨rfl, by decide, by decide⟩

/-- C6: a profile bin entry that is a resolving symlink whose target
lies under the store root, but whose store-side file (the file in the
same store directory at the target's base name) is not itself a
symlink to the shared container-executor binary, is never marked for
removal by the collector's predicate, for every desired
configuration. -/
theorem package_store_link_kept (fs : FS) (base : Path) (cfg : List String)
    (name : String) (t : Path) (n : Node)
    (hlink : fsFind fs (profileBinOf base ++ [name]) = some (.symlink t))
    (hres : statR fs statFuel (profileBinOf base ++ [name]) = .found n)
    (hstore : storeRootOf base <+: t)
    (hnotexec : ∀ d rest, t.drop (storeRootOf base).length = d :: rest →
        fsFind fs (storeRootOf base ++ [d, (d :: rest).getLast (List.cons_ne_nil d rest)])
          ≠ some (.symlink (containerExecOf base))) :
    shouldRemoveSymlink fs base cfg name = false := by
  unfold shouldRemoveSymlink
  rw [hlink, hres]
  simp only [hstore, decide_True, if_true]
  split
  · rfl
  · next d rest hdrop =>
    split
    · next lt hfind =>
      rw [if_neg (fun hlt => hnotexec d rest hdrop (by rw [hfind, hlt]))]
    · rfl

/-- The filesystem for the C6 witness: a profile link `jq` resolving
to a plain executable file inside the package store entry
`store/jq-1`. -/
def wPkgLinkFS : FS :=
  [(["h", "profiles", "default", "bin"], .dir),
   (["h", "profiles", "default", "bin", "jq"], .symlink ["h", "store", "jq-1", "jq"]),
   (["h", "store", "jq-1", "jq"], .file (.bytes "elf") true)]

/-- Witness for C6: the package store link `jq` is kept even with an
empty desired configuration. -/
theorem package_store_link_kept_witness :
    shouldRemoveSymlink wPkgLinkFS ["h"] [] "jq" = false :=
  package_store_link_kept wPkgLinkFS ["h"] [] "jq" ["h", "store", "jq-1", "jq"]
    (.file (.bytes "elf") true) rfl (by decide) (by decide)
    (by
      intro d rest h
      have hd : d = "jq-1" ∧ rest = ["jq"] := by
        have h2 : (["jq-1", "jq"] : List String) = d :: rest := h
        exact ⟨(List.cons_eq_cons.mp h2.symm).1.symm ▸ rfl, (List.cons_eq_cons.mp h2.symm).2.symm ▸ rfl⟩
      obtain ⟨rfl, rfl⟩ := hd
      decide)

/-- C10: the docker client's `Exists` and `IsRunning` answer by
substring containment over the newline-joined `docker ps` output — any
name occurring as a substring matches, not only exact names (so
`Exists "yourpm-a"` is true when only `yourpm-abc` exists) — and any
listing failure makes both return `false`. -/
theorem docker_name_queries_use_substrings :
    (∀ names name,
        (containerExists (some names) name = true ↔ name.data <:+: (psOutput names).data)
      ∧ (IsRunning (some names) name = true ↔ name.data <:+: (psOutput names).data))
    ∧ (∀ name, containerExists none name = false ∧ IsRunning none name = false)
    ∧ containerExists (some ["yourpm-abc"]) "yourpm-a" = true
    ∧ "yourpm-a" ≠ "yourpm-abc" := by
  refine ⟨fun names name => ⟨?_, ?_⟩, fun name => ⟨rfl, rfl⟩, ?_, ?_⟩
  · simp [containerExists, goContains]
  · simp [IsRunning, goContains]
  · decide
  · decide

end Yourpm
